/-
Verification of the TonsoTranslator core pipeline
(segment grouping, translation pipeline, retry wrapper, audio sync engine)
against its natural-language specification.

The TypeScript sources are shallowly embedded:
  - src/services/youtubeService.ts   : groupSegmentsIntoChunks
  - src/services/geminiService.ts    : withRetry, generateTTS, translateAllChunks
  - src/services/audioSyncService.ts : AudioSyncEngine (play/pause/seekTo/
                                       setVolume/getCurrentVideoTime)
JavaScript numbers are modelled as rationals (ℚ); the Web-Audio real-time
clock is an explicit parameter; callbacks are modelled by collecting their
invocations into lists; thrown errors become Except / explicit result types.
-/
import Mathlib

namespace TonsoTranslator

/-! ## Data model (src/types.ts) -/

/-- A raw timestamped caption fragment (types.ts `TranscriptSegment`). -/
structure TranscriptSegment where
  text : String
  offset : ℚ
  duration : ℚ
deriving DecidableEq, Repr

/-- A group of segments forming one translation unit (types.ts `TranscriptChunk`). -/
structure TranscriptChunk where
  id : ℕ
  segments : List TranscriptSegment
  startTime : ℚ
  endTime : ℚ
  fullText : String
deriving DecidableEq, Repr

/-- A translated / dubbed chunk (types.ts `TranslatedChunk`).
`audioBase64 = none` models the `null` payload. -/
structure TranslatedChunk where
  id : ℕ
  startTime : ℚ
  endTime : ℚ
  originalText : String
  translatedText : String
  audioBase64 : Option String
  audioDuration : ℚ
deriving DecidableEq, Repr

/-! ## AudioSyncEngine (src/services/audioSyncService.ts)

The engine's mutable fields become a state record.  The Web Audio clock
`audioContext.currentTime` is passed explicitly as `now`.  The map of decoded
buffers `audioBuffers : Map<number, AudioBuffer>` is modelled as an
association list from chunk id to the decoded buffer's duration (the only
attribute of an `AudioBuffer` the scheduling logic reads).  The set of
scheduled sources, together with the `source.start` call performed on each,
is modelled by the `scheduled` list. -/

/-- What `play` did with a scheduled `AudioBufferSourceNode`:
started at an absolute context time (`source.start(when)`), started
immediately at an in-buffer offset (`source.start(0, offset)`), or created
and registered but never started. -/
inductive StartAction where
  | startAt (t : ℚ)
  | startNow (offset : ℚ)
  | noStart
deriving DecidableEq, Repr

/-- The engine's private state. -/
structure EngineState where
  chunks : List TranslatedChunk
  audioBuffers : List (ℕ × ℚ)
  scheduled : List (ℕ × StartAction)
  isPlaying : Bool
  playbackStartTime : ℚ
  videoTimeOffset : ℚ
  gain : ℚ
deriving DecidableEq, Repr

/-- Engine state right after the constructor: no chunks, gain 1.0. -/
def EngineState.init : EngineState :=
  { chunks := [], audioBuffers := [], scheduled := [], isPlaying := false,
    playbackStartTime := 0, videoTimeOffset := 0, gain := 1 }

/-- The scheduling decision `play` takes for a single chunk
(the body of the `for` loop in `AudioSyncEngine.play`):
`none` when the chunk is not entered into `scheduledSources` at all
(no decoded buffer, or `timeUntilChunk < -chunk.audioDuration`). -/
def scheduleChunk (audioBuffers : List (ℕ × ℚ)) (playbackStartTime fromVideoTime : ℚ)
    (chunk : TranslatedChunk) : Option StartAction :=
  match audioBuffers.lookup chunk.id with
  | none => none
  | some bufferDuration =>
    let timeUntilChunk := chunk.startTime - fromVideoTime
    if timeUntilChunk ≥ -chunk.audioDuration then
      if timeUntilChunk ≥ 0 then
        some (.startAt (playbackStartTime + timeUntilChunk))
      else
        if -timeUntilChunk < bufferDuration then
          some (.startNow (-timeUntilChunk))
        else
          some .noStart
    else
      none

/-- `AudioSyncEngine.play(fromVideoTime)` at real clock reading `now`:
stops everything, records the clock and the video offset, and schedules
every chunk per `scheduleChunk`. -/
def EngineState.play (s : EngineState) (now fromVideoTime : ℚ) : EngineState :=
  { s with
    isPlaying := true
    playbackStartTime := now
    videoTimeOffset := fromVideoTime
    scheduled := s.chunks.filterMap fun c =>
      (scheduleChunk s.audioBuffers now fromVideoTime c).map fun a => (c.id, a) }

/-- `AudioSyncEngine.pause()`: clears the playing flag and stops all sources.
The video-time offset fields are left untouched. -/
def EngineState.pause (s : EngineState) : EngineState :=
  { s with isPlaying := false, scheduled := [] }

/-- `AudioSyncEngine.seekTo(videoTime)`: replays from `videoTime` when
playing, otherwise does nothing. -/
def EngineState.seekTo (s : EngineState) (now videoTime : ℚ) : EngineState :=
  if s.isPlaying then s.play now videoTime else s

/-- `AudioSyncEngine.setVolume(volume)`: clamps into [0, 1] via
`Math.max(0, Math.min(1, volume))`. -/
def EngineState.setVolume (s : EngineState) (volume : ℚ) : EngineState :=
  { s with gain := max 0 (min 1 volume) }

/-- `AudioSyncEngine.getCurrentVideoTime()` at real clock reading `now`. -/
def EngineState.getCurrentVideoTime (s : EngineState) (now : ℚ) : ℚ :=
  if s.isPlaying then s.videoTimeOffset + (now - s.playbackStartTime)
  else s.videoTimeOffset

/-! ## withRetry (src/services/geminiService.ts, lines 13–33)

A JavaScript error value is embedded by the fields `withRetry` inspects:
the numeric `status` / `code` / `httpErrorCode` properties (absent = `none`)
and the optional `message` string.  The async operation `fn` becomes a
function from the attempt number to an `Except` result, so that a different
outcome per attempt can be expressed.  The result type distinguishes the
three exits of `withRetry`: returning `fn`'s value, rethrowing an error
raised by `fn`, and the final `throw new Error('Max retries exceeded')`. -/

/-- A thrown JS error as seen by `withRetry`. -/
structure JsError where
  status : Option ℤ
  code : Option ℤ
  httpErrorCode : Option ℤ
  message : Option String
deriving DecidableEq, Repr

/-- JS truthiness of an optional number (`undefined` and `0` are falsy). -/
def jsTruthy : Option ℤ → Bool
  | none => false
  | some v => v ≠ 0

/-- JS `a || b` on optional numbers. -/
def jsOr (a b : Option ℤ) : Option ℤ :=
  if jsTruthy a then a else b

/-- `error?.status || error?.code || error?.httpErrorCode`. -/
def JsError.statusField (e : JsError) : Option ℤ :=
  jsOr (jsOr e.status e.code) e.httpErrorCode

/-- `error?.message?.includes(sub)` (`undefined` message is falsy). -/
def JsError.msgIncludes (e : JsError) (sub : String) : Bool :=
  match e.message with
  | none => false
  | some m => decide (List.IsInfix sub.toList m.toList)

/-- The rate-limit test of `withRetry`:
`status === 429 || message.includes('RESOURCE_EXHAUSTED') || message.includes('429')`. -/
def isRateLimit (e : JsError) : Bool :=
  e.statusField = some 429 || e.msgIncludes "RESOURCE_EXHAUSTED" || e.msgIncludes "429"

/-- How a `withRetry` call terminates. -/
inductive RetryResult (α : Type) where
  | ok (a : α)
  | opError (e : JsError)
  | maxRetriesExceeded
deriving DecidableEq, Repr

/-- The `for (let attempt = 0; attempt <= maxRetries; attempt++)` loop of
`withRetry`, also counting the attempts made.  The loop is driven by the
number `gas` of iterations the loop guard still allows
(`gas = maxRetries + 1 - attempt`, so `gas = 0` means `attempt > maxRetries`);
falling out of the loop reaches `throw new Error('Max retries exceeded')`. -/
def withRetryLoop (fn : ℕ → Except JsError α) (maxRetries : ℕ) :
    ℕ → ℕ → RetryResult α × ℕ
  | 0, _ => (.maxRetriesExceeded, 0)
  | gas + 1, attempt =>
    match fn attempt with
    | .ok a => (.ok a, 1)
    | .error e =>
      if isRateLimit e ∧ attempt < maxRetries then
        let r := withRetryLoop fn maxRetries gas (attempt + 1)
        (r.1, r.2 + 1)
      else
        (.opError e, 1)

/-- `withRetry(fn, maxRetries)`: the loop's result together with the number
of attempts (invocations of `fn`) performed. -/
def withRetry (fn : ℕ → Except JsError α) (maxRetries : ℕ) : RetryResult α × ℕ :=
  withRetryLoop fn maxRetries (maxRetries + 1) 0

/-! ## groupSegmentsIntoChunks (src/services/youtubeService.ts, lines 52–104)
with the constants of src/constants.ts -/

/-- `CHUNK_MAX_DURATION_SEC` (constants.ts line 41). -/
def CHUNK_MAX_DURATION_SEC : ℚ := 15

/-- `CHUNK_MIN_DURATION_SEC` (constants.ts line 42). -/
def CHUNK_MIN_DURATION_SEC : ℚ := 3

/-- `/[.!?;:]$/.test(text.trim())`: the trimmed text's last character —
that is, the last non-whitespace character — is a sentence-terminal
punctuation mark. -/
def endsWithPunctuation (text : String) : Bool :=
  match (text.toList.reverse.dropWhile Char.isWhitespace).head? with
  | some c => c = '.' || c = '!' || c = '?' || c = ';' || c = ':'
  | none => false

/-- Build the `TranscriptChunk` pushed for a closed group
(`startTime` from the first segment, `endTime` from the last,
`fullText` the texts joined with a single space). -/
def mkChunk (chunkId : ℕ) (segs : List TranscriptSegment) : TranscriptChunk :=
  { id := chunkId
    segments := segs
    startTime := (segs.headD ⟨"", 0, 0⟩).offset
    endTime := (segs.getLastD ⟨"", 0, 0⟩).offset + (segs.getLastD ⟨"", 0, 0⟩).duration
    fullText := String.intercalate " " (segs.map (·.text)) }

/-- The `for (const segment of segments)` loop of `groupSegmentsIntoChunks`,
carrying `currentSegments`, `currentDuration` and `chunkId`, followed by the
final "don't forget remaining segments" push. -/
def groupLoop : List TranscriptSegment → List TranscriptSegment → ℚ → ℕ →
    List TranscriptChunk
  | [], currentSegments, _, chunkId =>
    if currentSegments.isEmpty then [] else [mkChunk chunkId currentSegments]
  | seg :: rest, currentSegments, currentDuration, chunkId =>
    let currentSegments' := currentSegments ++ [seg]
    let currentDuration' := currentDuration + seg.duration
    let isLongEnough := currentDuration' ≥ CHUNK_MAX_DURATION_SEC
    let isMinDuration := currentDuration' ≥ CHUNK_MIN_DURATION_SEC
    if isLongEnough || (endsWithPunctuation seg.text && isMinDuration) then
      mkChunk chunkId currentSegments' :: groupLoop rest [] 0 (chunkId + 1)
    else
      groupLoop rest currentSegments' currentDuration' chunkId

/-- `groupSegmentsIntoChunks(segments)`. -/
def groupSegmentsIntoChunks (segments : List TranscriptSegment) :
    List TranscriptChunk :=
  groupLoop segments [] 0 0

/-! ## generateTTS and translateAllChunks (src/services/geminiService.ts)

The remote Gemini calls are abstracted into function parameters:
`translateFn` stands for the network side of `translateChunkText` (it
receives the chunk and the accumulated `previousTranslations` list and
either returns the translated text or throws), and `ttsFn` stands for the
network side of `generateTTS` (it either throws or returns the optional
base64 payload `candidates?.[0]...inlineData?.data || null`).
`onProgress` invocations are collected into a list of events. -/

/-- JS `Math.round` on a rational (round half toward +∞). -/
def jsRound (q : ℚ) : ℤ := ⌊q + 1 / 2⌋

/-- `text.substring(0, 60) + (text.length > 60 ? '...' : '')`. -/
def truncate60 (text : String) : String :=
  if text.length > 60 then text.take 60 ++ "..." else text

/-- The `phase` field of a progress event. -/
inductive Phase where
  | translating
  | generating_audio
deriving DecidableEq, Repr

/-- One `onProgress` invocation (types.ts `TranslationProgress`). -/
structure TranslationProgress where
  currentChunk : ℕ
  totalChunks : ℕ
  percentage : ℤ
  currentText : String
  phase : Phase
deriving DecidableEq, Repr

/-- The duration computed by `generateTTS` from the optional base64 payload:
`byteLength = length * 3 / 4`, `samples = byteLength / 2`,
`duration = samples / 24000`; `0` when there is no payload. -/
def ttsDuration : Option String → ℚ
  | none => 0
  | some audioBase64 => (audioBase64.length : ℚ) * 3 / 4 / 2 / 24000

/-- `generateTTS(text, voice)`: the surrounding `try/catch` turns any thrown
error into `{ audioBase64: null, duration: 0 }`. -/
def generateTTS (ttsFn : String → Except JsError (Option String)) (text : String) :
    Option String × ℚ :=
  match ttsFn text with
  | .error _ => (none, 0)
  | .ok audioBase64 => (audioBase64, ttsDuration audioBase64)

/-- The progress event emitted before phase `phaseOffset` (0 = translating,
1 = generating audio) of chunk index `i` (0-based). -/
def progressEvent (totalChunks i phaseOffset : ℕ) (text : String) (phase : Phase) :
    TranslationProgress :=
  { currentChunk := i + 1
    totalChunks := totalChunks
    percentage := jsRound ((i * 2 + phaseOffset : ℚ) / (totalChunks * 2) * 100)
    currentText := text
    phase := phase }

/-- The final 100% event of `translateAllChunks`. -/
def progressFinal (totalChunks : ℕ) : TranslationProgress :=
  { currentChunk := totalChunks
    totalChunks := totalChunks
    percentage := 100
    currentText := "Terminé !"
    phase := .generating_audio }

/-- The `for (let i = 0; i < chunks.length; i++)` loop of
`translateAllChunks`, returning the emitted progress events and either the
accumulated `translatedChunks` (followed by the final 100% event) or the
error thrown out of the translate phase. -/
def translateAllChunksLoop
    (translateFn : TranscriptChunk → List String → Except JsError String)
    (ttsFn : String → Except JsError (Option String)) (totalChunks : ℕ) :
    List TranscriptChunk → ℕ → List String →
    List TranslationProgress × Except JsError (List TranslatedChunk)
  | [], _, _ => ([progressFinal totalChunks], .ok [])
  | chunk :: rest, i, previousTranslations =>
    let ev1 := progressEvent totalChunks i 0 (truncate60 chunk.fullText) .translating
    match translateFn chunk previousTranslations with
    | .error e => ([ev1], .error e)
    | .ok translatedText =>
      let ev2 := progressEvent totalChunks i 1 (truncate60 translatedText)
        .generating_audio
      let tts := generateTTS ttsFn translatedText
      let out : TranslatedChunk :=
        { id := chunk.id
          startTime := chunk.startTime
          endTime := chunk.endTime
          originalText := chunk.fullText
          translatedText := translatedText
          audioBase64 := tts.1
          audioDuration := tts.2 }
      let next := translateAllChunksLoop translateFn ttsFn totalChunks rest (i + 1)
        (previousTranslations ++ [translatedText])
      (ev1 :: ev2 :: next.1, next.2.map fun outs => out :: outs)

/-- `translateAllChunks(chunks, settings, context, voice, onProgress)`. -/
def translateAllChunks
    (translateFn : TranscriptChunk → List String → Except JsError String)
    (ttsFn : String → Except JsError (Option String))
    (chunks : List TranscriptChunk) :
    List TranslationProgress × Except JsError (List TranslatedChunk) :=
  translateAllChunksLoop translateFn ttsFn chunks.length chunks 0 []

/-! ## Spec-side definitions

These definitions follow the specification's words rather than the source,
for the claims that compare the two. -/

/-- Total duration of a run of segments ("accumulated duration"). -/
def durSum (segs : List TranscriptSegment) : ℚ := (segs.map (·.duration)).sum

/-- Spec: a nonempty run of fragments closes when "accumulated duration ≥
MAX_DURATION, OR (accumulated duration ≥ MIN_DURATION AND the last-added
fragment's trimmed text ends in a sentence-terminal punctuation mark)". -/
def specCloses (p : List TranscriptSegment) : Bool :=
  match p.getLast? with
  | none => false
  | some lastSeg =>
    durSum p ≥ CHUNK_MAX_DURATION_SEC ||
      (durSum p ≥ CHUNK_MIN_DURATION_SEC && endsWithPunctuation lastSeg.text)

/-- The length of the shortest nonempty closing run at the front of the
input, if any: the spec's "close (emit) the running chunk exactly when" the
condition first holds. -/
def firstCloseLen (segs : List TranscriptSegment) : Option ℕ :=
  (List.range' 1 segs.length).find? fun n => specCloses (segs.take n)

theorem firstCloseLen_bounds {segs : List TranscriptSegment} {n : ℕ}
    (h : firstCloseLen segs = some n) : 1 ≤ n ∧ n ≤ segs.length := by
  have hm := List.mem_of_find?_eq_some h
  rw [List.mem_range'_1] at hm
  omega

/-- Spec-side grouping of the raw fragments: repeatedly emit the shortest
closing run; "any fragments remaining after the scan form a final partial
chunk even if below MIN_DURATION; empty input yields an empty sequence". -/
def groupSpecSegs (segs : List TranscriptSegment) : List (List TranscriptSegment) :=
  match h : firstCloseLen segs with
  | some n => segs.take n :: groupSpecSegs (segs.drop n)
  | none => if segs.isEmpty then [] else [segs]
termination_by segs.length
decreasing_by
  have := firstCloseLen_bounds h
  simp only [List.length_drop]
  omega

/-- Number the emitted runs with consecutive chunk ids starting at
`chunkId`. -/
def chunksFrom : ℕ → List (List TranscriptSegment) → List TranscriptChunk
  | _, [] => []
  | chunkId, l :: ls => mkChunk chunkId l :: chunksFrom (chunkId + 1) ls

/-- The spec-side grouper. -/
def groupSpec (segs : List TranscriptSegment) : List TranscriptChunk :=
  chunksFrom 0 (groupSpecSegs segs)

/-- The number of trailing base64 padding characters of `s`. -/
def base64PadCount (s : String) : ℕ :=
  (s.toList.reverse.takeWhile (· = '=')).length

/-- The exact byte length of the raw base64-decoded data of a padded
base64 string (the spec claim's "exact number of bytes of the raw decoded
audio data"). -/
def base64DecodedByteLen (s : String) : ℕ :=
  s.length / 4 * 3 - base64PadCount s

/-! ## Helper lemmas -/

theorem setVolume_gain (s : EngineState) (v : ℚ) :
    (s.setVolume v).gain = max 0 (min 1 v) := rfl

theorem max_zero_min_one (v : ℚ) : max 0 (min 1 v) = min 1 (max 0 v) := by
  rw [min_max_distrib_left, min_eq_right (zero_le_one' ℚ)]

theorem foldl_setVolume_gain_bounds (vs : List ℚ) (s : EngineState)
    (h0 : 0 ≤ s.gain) (h1 : s.gain ≤ 1) :
    0 ≤ (vs.foldl EngineState.setVolume s).gain ∧
      (vs.foldl EngineState.setVolume s).gain ≤ 1 := by
  induction vs generalizing s with
  | nil => exact ⟨h0, h1⟩
  | cons v vs ih =>
    refine ih (s.setVolume v) ?_ ?_
    · exact le_max_left 0 (min 1 v)
    · exact max_le zero_le_one (min_le_left 1 v)

/-! ## Claim theorems -/

/-- C10: for every input `v` (including `v < 0` and `v > 1`), `setVolume v`
sets the engine's gain to exactly `min 1 (max 0 v)`, and after any sequence
of `setVolume` calls (starting from the freshly constructed engine) the gain
lies in the closed interval `[0, 1]`. -/
theorem C10_setVolume_clamped :
    (∀ (s : EngineState) (v : ℚ), (s.setVolume v).gain = min 1 (max 0 v)) ∧
    (∀ vs : List ℚ,
      0 ≤ (vs.foldl EngineState.setVolume EngineState.init).gain ∧
      (vs.foldl EngineState.setVolume EngineState.init).gain ≤ 1) := by
  constructor
  · intro s v
    rw [setVolume_gain, max_zero_min_one]
  · intro vs
    exact foldl_setVolume_gain_bounds vs EngineState.init (by norm_num [EngineState.init])
      (by norm_num [EngineState.init])

/-- C2 (counterexample): the claim says `seekTo t` while paused updates the
remembered video-time offset to `t` so that `getCurrentVideoTime` then
returns `t`.  On the code, `seekTo` is a guard-only no-op while paused: on
the freshly constructed (paused) engine, `seekTo 5` at clock 1 leaves the
offset at 0, and `getCurrentVideoTime` still returns 0, not 5. -/
theorem C2_seekTo_paused_counterexample :
    EngineState.init.isPlaying = false ∧
    (EngineState.init.seekTo 1 5).getCurrentVideoTime 2 = 0 ∧
    (EngineState.init.seekTo 1 5).getCurrentVideoTime 2 ≠ 5 ∧
    (EngineState.init.seekTo 1 5).videoTimeOffset ≠ 5 := by
  refine ⟨rfl, rfl, ?_, ?_⟩ <;> decide

/-- C2 (amended): `seekTo t` while playing behaves exactly like `play t`
(all scheduled buffers cancelled and rescheduled from `t`); while paused it
is a no-op — the engine state, and in particular the remembered video-time
offset and any subsequent `getCurrentVideoTime`, are unchanged. -/
theorem C2_seekTo_amended (s : EngineState) (now t : ℚ) :
    (s.isPlaying = true → s.seekTo now t = s.play now t) ∧
    (s.isPlaying = false → s.seekTo now t = s ∧
      ∀ now2 : ℚ, (s.seekTo now t).getCurrentVideoTime now2 =
        s.getCurrentVideoTime now2) := by
  constructor
  · intro h
    simp [EngineState.seekTo, h]
  · intro h
    simp [EngineState.seekTo, h]

theorem C2_seekTo_amended_witness :
    ((EngineState.init.play 0 0).seekTo 1 5 = (EngineState.init.play 0 0).play 1 5) ∧
    (EngineState.init.seekTo 1 5 = EngineState.init) :=
  ⟨(C2_seekTo_amended (EngineState.init.play 0 0) 1 5).1 rfl,
   ((C2_seekTo_amended EngineState.init 1 5).2 rfl).1⟩

/-- C8: while playing, `getCurrentVideoTime` equals the video-time offset
recorded at the last play plus the real time elapsed on the engine clock
since that play; immediately after `play t` it returns exactly `t`, and it
is monotone in real time; after `pause` it returns a constant value that no
longer advances with real time. -/
theorem C8_getCurrentVideoTime (s : EngineState) (clockAtPlay t now now2 : ℚ) :
    (s.isPlaying = true →
      s.getCurrentVideoTime now = s.videoTimeOffset + (now - s.playbackStartTime)) ∧
    ((s.play clockAtPlay t).getCurrentVideoTime now = t + (now - clockAtPlay)) ∧
    ((s.play clockAtPlay t).getCurrentVideoTime clockAtPlay = t) ∧
    (now ≤ now2 →
      (s.play clockAtPlay t).getCurrentVideoTime now ≤
        (s.play clockAtPlay t).getCurrentVideoTime now2) ∧
    (s.pause.getCurrentVideoTime now = s.pause.getCurrentVideoTime now2) := by
  refine ⟨?_, ?_, ?_, ?_, ?_⟩
  · intro h
    simp [EngineState.getCurrentVideoTime, h]
  · simp [EngineState.getCurrentVideoTime, EngineState.play]
  · simp [EngineState.getCurrentVideoTime, EngineState.play]
  · intro h
    simp only [EngineState.getCurrentVideoTime, EngineState.play, if_pos]
    linarith
  · simp [EngineState.getCurrentVideoTime, EngineState.pause]

theorem C8_getCurrentVideoTime_witness :
    ((EngineState.init.play 2 5).getCurrentVideoTime 2 = 5) ∧
    ((EngineState.init.play 2 5).getCurrentVideoTime 3 ≤
      (EngineState.init.play 2 5).getCurrentVideoTime 4) ∧
    ((EngineState.init.play 2 5).getCurrentVideoTime 3 =
      (EngineState.init.play 2 5).videoTimeOffset +
        (3 - (EngineState.init.play 2 5).playbackStartTime)) :=
  ⟨(C8_getCurrentVideoTime EngineState.init 2 5 3 4).2.2.1,
   (C8_getCurrentVideoTime EngineState.init 2 5 3 4).2.2.2.1 (by norm_num),
   (C8_getCurrentVideoTime (EngineState.init.play 2 5) 2 5 3 4).1 rfl⟩

/-! ## C7: scheduling performed by `play` -/

theorem scheduleChunk_isSome (bufs : List (ℕ × ℚ)) (now fromT : ℚ)
    (c : TranslatedChunk) :
    (scheduleChunk bufs now fromT c).isSome = true ↔
      (bufs.lookup c.id).isSome = true ∧
        c.startTime - fromT ≥ -c.audioDuration := by
  unfold scheduleChunk
  cases bufs.lookup c.id with
  | none => simp
  | some bd =>
    simp only [Option.isSome_some, true_and]
    split_ifs with h1 h2 h3 <;> simp_all

theorem scheduleChunk_future (bufs : List (ℕ × ℚ)) (now fromT : ℚ)
    (c : TranslatedChunk) (bd : ℚ) (hbuf : bufs.lookup c.id = some bd)
    (hguard : c.startTime - fromT ≥ -c.audioDuration)
    (hfut : fromT ≤ c.startTime) :
    scheduleChunk bufs now fromT c =
      some (.startAt (now + (c.startTime - fromT))) := by
  unfold scheduleChunk
  rw [hbuf]
  simp only [ge_iff_le]
  rw [if_pos hguard, if_pos (by linarith : (0 : ℚ) ≤ c.startTime - fromT)]

theorem scheduleChunk_inProgress (bufs : List (ℕ × ℚ)) (now fromT : ℚ)
    (c : TranslatedChunk) (bd : ℚ) (hbuf : bufs.lookup c.id = some bd)
    (hguard : c.startTime - fromT ≥ -c.audioDuration)
    (hpast : c.startTime < fromT) (hoff : fromT - c.startTime < bd) :
    scheduleChunk bufs now fromT c = some (.startNow (fromT - c.startTime)) := by
  unfold scheduleChunk
  rw [hbuf]
  simp only [ge_iff_le]
  rw [if_pos hguard, if_neg (by linarith : ¬ (0 : ℚ) ≤ c.startTime - fromT),
    if_pos (by linarith : -(c.startTime - fromT) < bd)]
  ring_nf

theorem scheduleChunk_skip (bufs : List (ℕ × ℚ)) (now fromT : ℚ)
    (c : TranslatedChunk) (bd : ℚ) (hbuf : bufs.lookup c.id = some bd)
    (hguard : c.startTime - fromT ≥ -c.audioDuration)
    (hpast : c.startTime < fromT) (hoff : bd ≤ fromT - c.startTime) :
    scheduleChunk bufs now fromT c = some .noStart := by
  unfold scheduleChunk
  rw [hbuf]
  simp only [ge_iff_le]
  rw [if_pos hguard, if_neg (by linarith : ¬ (0 : ℚ) ≤ c.startTime - fromT),
    if_neg (by linarith : ¬ -(c.startTime - fromT) < bd)]

/-- The single loaded chunk of the spec's concrete example: a dubbed chunk
spanning video time 10 s to 13 s whose decoded buffer lasts 3 s. -/
def demoChunk : TranslatedChunk :=
  { id := 0, startTime := 10, endTime := 13, originalText := "",
    translatedText := "", audioBase64 := some "", audioDuration := 3 }

/-- An engine that has loaded `demoChunk` (its 3-second buffer decoded). -/
def demoEngine : EngineState :=
  { EngineState.init with chunks := [demoChunk], audioBuffers := [(0, 3)] }

/-- C7: `play fromVideoTime` enters a chunk into the schedule iff its audio
decoded successfully and `startTime - fromVideoTime ≥ -audioDuration`; a
scheduled chunk with `startTime ≥ fromVideoTime` is started at the engine
clock reading recorded at play plus `startTime - fromVideoTime`; a chunk
already in progress is started immediately at in-buffer offset
`fromVideoTime - startTime`, or never started if that offset is not below
the decoded buffer's duration.  In particular for the single loaded chunk
spanning 10 s–13 s, `play 5` schedules it 5 s in the future and `play 11`
starts it immediately at a 1-second in-buffer offset. -/
theorem C7_play_scheduling (s : EngineState) (now fromT : ℚ)
    (c : TranslatedChunk) (bd : ℚ) :
    ((s.play now fromT).scheduled = s.chunks.filterMap fun c =>
      (scheduleChunk s.audioBuffers now fromT c).map fun a => (c.id, a)) ∧
    ((scheduleChunk s.audioBuffers now fromT c).isSome = true ↔
      (s.audioBuffers.lookup c.id).isSome = true ∧
        c.startTime - fromT ≥ -c.audioDuration) ∧
    (s.audioBuffers.lookup c.id = some bd →
      c.startTime - fromT ≥ -c.audioDuration →
      (fromT ≤ c.startTime →
        scheduleChunk s.audioBuffers now fromT c =
          some (.startAt (now + (c.startTime - fromT)))) ∧
      (c.startTime < fromT → fromT - c.startTime < bd →
        scheduleChunk s.audioBuffers now fromT c =
          some (.startNow (fromT - c.startTime))) ∧
      (c.startTime < fromT → bd ≤ fromT - c.startTime →
        scheduleChunk s.audioBuffers now fromT c = some .noStart)) ∧
    (demoEngine.play 100 5).scheduled = [(0, .startAt 105)] ∧
    (demoEngine.play 100 11).scheduled = [(0, .startNow 1)] := by
  refine ⟨rfl, scheduleChunk_isSome _ _ _ _, fun hbuf hguard => ?_,
    by norm_num [demoEngine, demoChunk, EngineState.play, EngineState.init,
      scheduleChunk, List.lookup, List.filterMap_cons],
    by norm_num [demoEngine, demoChunk, EngineState.play, EngineState.init,
      scheduleChunk, List.lookup, List.filterMap_cons]⟩
  exact ⟨fun hfut => scheduleChunk_future _ _ _ _ _ hbuf hguard hfut,
    fun hpast hoff => scheduleChunk_inProgress _ _ _ _ _ hbuf hguard hpast hoff,
    fun hpast hoff => scheduleChunk_skip _ _ _ _ _ hbuf hguard hpast hoff⟩

theorem C7_play_scheduling_witness :
    (demoEngine.play 100 5).scheduled = [(0, .startAt 105)] ∧
    scheduleChunk demoEngine.audioBuffers 100 5 demoChunk =
      some (.startAt (100 + ((10 : ℚ) - 5))) ∧
    scheduleChunk demoEngine.audioBuffers 100 11 demoChunk =
      some (.startNow ((11 : ℚ) - 10)) :=
  ⟨(C7_play_scheduling demoEngine 100 5 demoChunk 3).2.2.2.1,
   ((C7_play_scheduling demoEngine 100 5 demoChunk 3).2.2.1
      (by simp [demoEngine, demoChunk, EngineState.init, List.lookup])
      (by norm_num [demoChunk])).1 (by norm_num [demoChunk]),
   (((C7_play_scheduling demoEngine 100 11 demoChunk 3).2.2.1
      (by simp [demoEngine, demoChunk, EngineState.init, List.lookup])
      (by norm_num [demoChunk])).2.1 (by norm_num [demoChunk])
      (by norm_num [demoChunk]))⟩

/-! ## C1: withRetry -/

theorem withRetryLoop_ne_maxRetriesExceeded (fn : ℕ → Except JsError α) (m : ℕ) :
    ∀ gas attempt, attempt ≤ m → attempt + gas = m + 1 →
      (withRetryLoop fn m gas attempt).1 ≠ .maxRetriesExceeded := by
  intro gas
  induction gas with
  | zero => intro attempt h1 h2; omega
  | succ gas ih =>
    intro attempt h1 _h2
    unfold withRetryLoop
    cases hfn : fn attempt with
    | ok a => simp
    | error e =>
      simp only
      split_ifs with hc
      · exact ih (attempt + 1) (by omega) (by omega)
      · simp

theorem withRetryLoop_allRateLimit (fn : ℕ → Except JsError α) (m : ℕ)
    (hall : ∀ k, k ≤ m → ∃ e, fn k = .error e ∧ isRateLimit e = true) :
    ∀ gas attempt, attempt ≤ m → attempt + gas = m + 1 →
      ∃ e, fn m = .error e ∧ withRetryLoop fn m gas attempt = (.opError e, gas) := by
  intro gas
  induction gas with
  | zero => intro attempt h1 h2; omega
  | succ gas ih =>
    intro attempt h1 h2
    obtain ⟨ea, hea, hrl⟩ := hall attempt h1
    by_cases hlt : attempt < m
    · obtain ⟨e, he, hloop⟩ := ih (attempt + 1) (by omega) (by omega)
      refine ⟨e, he, ?_⟩
      unfold withRetryLoop
      rw [hea]
      simp only [if_pos (⟨hrl, hlt⟩ : isRateLimit ea = true ∧ attempt < m)]
      rw [hloop]
    · have hm : attempt = m := by omega
      have hgas : gas = 0 := by omega
      subst hm hgas
      refine ⟨ea, hea, ?_⟩
      unfold withRetryLoop
      rw [hea]
      simp only
      split_ifs with hc
      · exact absurd hc.2 hlt
      · rfl

theorem withRetry_firstError_nonRateLimit (fn : ℕ → Except JsError α) (m : ℕ)
    (e : JsError) (hfn : fn 0 = .error e) (hrl : isRateLimit e = false) :
    withRetry fn m = (.opError e, 1) := by
  unfold withRetry withRetryLoop
  rw [hfn]
  simp [hrl]

theorem withRetry_retried_implies_rateLimit (fn : ℕ → Except JsError α) (m : ℕ)
    (h : 2 ≤ (withRetry fn m).2) :
    ∃ e, fn 0 = .error e ∧ isRateLimit e = true := by
  unfold withRetry withRetryLoop at h
  cases hfn : fn 0 with
  | ok a => rw [hfn] at h; simp at h
  | error e =>
    rw [hfn] at h
    simp only at h
    split_ifs at h with hc
    · exact ⟨e, rfl, hc.1⟩
    · simp at h

/-- A bare HTTP 429 rate-limit error. -/
def rlErr429 : JsError :=
  { status := some 429, code := none, httpErrorCode := none, message := none }

/-- An error carrying no rate-limit marker at all. -/
def plainErr : JsError :=
  { status := none, code := none, httpErrorCode := none, message := some "boom" }

/-- An operation failing with the 429 error on every attempt. -/
def alwaysRL : ℕ → Except JsError Unit := fun _ => .error rlErr429

/-- An operation failing with the plain error on every attempt. -/
def alwaysPlain : ℕ → Except JsError Unit := fun _ => .error plainErr

/-- C1 (counterexample): with an operation that fails with a rate-limit
marker on every attempt and `maxRetries = 2`, the code performs 3 attempts
(as the claim says) but then rethrows the operation's last error — it never
raises the distinct "retries exhausted" failure the claim requires
(`throw new Error('Max retries exceeded')` is unreachable). -/
theorem C1_withRetry_counterexample :
    isRateLimit rlErr429 = true ∧
    withRetry alwaysRL 2 = (.opError rlErr429, 3) ∧
    (withRetry alwaysRL 2).1 ≠ .maxRetriesExceeded := by
  refine ⟨by decide, by decide, by decide⟩

/-- C1 (amended): for every 0-arg operation and every `maxRetries ≥ 0`,
`withRetry` retries only when the raised error carries a rate-limit marker
(status/code 429 or a quota-exhaustion marker in the message); an error
without such a marker propagates after exactly 1 attempt; and if every
attempt fails with a rate-limit marker it performs exactly
`maxRetries + 1` attempts (3 for `maxRetries = 2`) and then raises the
operation's last error — the distinct "retries exhausted" failure is
unreachable. -/
theorem C1_withRetry_amended (fn : ℕ → Except JsError α) (m : ℕ) :
    (∀ e, fn 0 = .error e → isRateLimit e = false →
      withRetry fn m = (.opError e, 1)) ∧
    ((∀ k, k ≤ m → ∃ e, fn k = .error e ∧ isRateLimit e = true) →
      ∃ e, fn m = .error e ∧ withRetry fn m = (.opError e, m + 1)) ∧
    ((withRetry fn m).1 ≠ .maxRetriesExceeded) ∧
    (2 ≤ (withRetry fn m).2 → ∃ e, fn 0 = .error e ∧ isRateLimit e = true) := by
  refine ⟨fun e hfn hrl => withRetry_firstError_nonRateLimit fn m e hfn hrl,
    fun hall => ?_,
    withRetryLoop_ne_maxRetriesExceeded fn m (m + 1) 0 (Nat.zero_le m) (by omega),
    withRetry_retried_implies_rateLimit fn m⟩
  obtain ⟨e, he, hloop⟩ :=
    withRetryLoop_allRateLimit fn m hall (m + 1) 0 (Nat.zero_le m) (by omega)
  exact ⟨e, he, hloop⟩

theorem C1_withRetry_amended_witness :
    (withRetry alwaysPlain 3 = (.opError plainErr, 1)) ∧
    (∃ e, alwaysRL 2 = .error e ∧ withRetry alwaysRL 2 = (.opError e, 2 + 1)) :=
  ⟨(C1_withRetry_amended alwaysPlain 3).1 plainErr rfl (by decide),
   (C1_withRetry_amended alwaysRL 2).2.1 (fun _k _hk => ⟨rlErr429, rfl, by decide⟩)⟩

/-! ## C9: audio duration computed by generateTTS -/

/-- C9 (counterexample): for the one-byte payload encoded as `"AA=="` the
recorded duration is `(4·3/4)/2/24000 = 1/16000` s, computed from the
base64 string length with the padding ignored, while the exact decoded
byte count (1) gives `1/48000` s — the claim's "exact number of bytes of
the raw decoded audio data" formula does not hold for padded payloads. -/
theorem C9_ttsDuration_counterexample :
    ttsDuration (some "AA==") = 1 / 16000 ∧
    (base64DecodedByteLen "AA==" : ℚ) / 2 / 24000 = 1 / 48000 ∧
    ttsDuration (some "AA==") ≠ (base64DecodedByteLen "AA==" : ℚ) / 2 / 24000 := by
  have h1 : ("AA==" : String).length = 4 := rfl
  have h2 : base64DecodedByteLen "AA==" = 1 := by decide
  refine ⟨?_, ?_, ?_⟩ <;> simp [ttsDuration, h1, h2] <;> norm_num

/-- C9 (amended): the duration recorded on the dubbed chunk equals
`byteLength / 2 / 24000` seconds where `byteLength = base64Length · 3 / 4`
is the byte-count estimate derived from the base64 string's length (padding
included); this coincides with the exact decoded byte count whenever the
payload is unpadded; when synthesis yields no payload (a thrown error or a
`null` inline payload) the duration is 0. -/
theorem C9_ttsDuration_amended (s text : String)
    (ttsFn : String → Except JsError (Option String)) (e : JsError) :
    (ttsDuration (some s) = (s.length : ℚ) * 3 / 4 / 2 / 24000) ∧
    (s.length % 4 = 0 → base64PadCount s = 0 →
      ttsDuration (some s) = (base64DecodedByteLen s : ℚ) / 2 / 24000) ∧
    (ttsDuration none = 0) ∧
    (ttsFn text = .error e → generateTTS ttsFn text = (none, 0)) ∧
    (ttsFn text = .ok none → generateTTS ttsFn text = (none, 0)) := by
  refine ⟨rfl, ?_, rfl, ?_, ?_⟩
  · intro h4 hpad
    obtain ⟨k, hk⟩ := Nat.dvd_of_mod_eq_zero h4
    have hlen : base64DecodedByteLen s = 3 * k := by
      unfold base64DecodedByteLen
      rw [hpad, hk]
      omega
    simp only [ttsDuration, hlen, hk]
    push_cast
    ring
  · intro h
    simp [generateTTS, h]
  · intro h
    simp [generateTTS, h, ttsDuration]

theorem C9_ttsDuration_amended_witness :
    ttsDuration (some "QUJD") =
      (base64DecodedByteLen "QUJD" : ℚ) / 2 / 24000 ∧
    generateTTS (fun _ => .error plainErr) "x" = (none, 0) :=
  ⟨(C9_ttsDuration_amended "QUJD" "x" (fun _ => .error plainErr) plainErr).2.1
      (by decide) (by decide),
   (C9_ttsDuration_amended "QUJD" "x" (fun _ => .error plainErr) plainErr).2.2.2.1
      rfl⟩

/-! ## C5 / C6: the translation pipeline -/

/-- The percentages of the progress events emitted from chunk index `i` on,
with `n` chunks left, followed by the final 100. -/
def percsFrom (total : ℕ) : ℕ → ℕ → List ℤ
  | _, 0 => [100]
  | i, n + 1 =>
    jsRound ((i * 2 : ℚ) / (total * 2) * 100) ::
    jsRound ((i * 2 + 1 : ℚ) / (total * 2) * 100) ::
    percsFrom total (i + 1) n

theorem percsFrom_zero (total i : ℕ) : percsFrom total i 0 = [100] := rfl

theorem percsFrom_succ (total i n : ℕ) :
    percsFrom total i (n + 1) =
      jsRound ((i * 2 : ℚ) / (total * 2) * 100) ::
      jsRound ((i * 2 + 1 : ℚ) / (total * 2) * 100) ::
      percsFrom total (i + 1) n := rfl

theorem jsRound_mono {q r : ℚ} (h : q ≤ r) : jsRound q ≤ jsRound r :=
  Int.floor_le_floor (by linarith)

theorem jsRound_le_100 {q : ℚ} (h : q ≤ 100) : jsRound q ≤ 100 := by
  unfold jsRound
  rw [Int.floor_le_iff]
  push_cast
  linarith

theorem getLast?_cons_of_ne_nil (a : α) (l : List α) (h : l ≠ []) :
    (a :: l).getLast? = l.getLast? := by
  cases l with
  | nil => exact absurd rfl h
  | cons b t => rfl

theorem percsFrom_length (total : ℕ) :
    ∀ n i, (percsFrom total i n).length = 2 * n + 1 := by
  intro n
  induction n with
  | zero => intro i; rfl
  | succ n ih =>
    intro i
    simp only [percsFrom, List.length_cons, ih (i + 1)]
    omega

theorem percsFrom_ne_nil (total n i : ℕ) : percsFrom total i n ≠ [] := by
  cases n <;> simp [percsFrom_zero, percsFrom_succ]

/-- Division step for the percentage formula: the reported value is
monotone in `2·i + phaseOffset`. -/
theorem percArg_mono (total : ℕ) {a b : ℚ} (h : a ≤ b) :
    a / ((total : ℚ) * 2) * 100 ≤ b / ((total : ℚ) * 2) * 100 := by
  rcases Nat.eq_zero_or_pos total with h0 | h0
  · subst h0
    norm_num
  · have ht : (0 : ℚ) < (total : ℚ) * 2 := by positivity
    have hd : a / ((total : ℚ) * 2) ≤ b / ((total : ℚ) * 2) :=
      (div_le_div_right ht).mpr h
    nlinarith

theorem percsFrom_le_100_head (total i : ℕ) (hi : i + 1 ≤ total) :
    jsRound ((i * 2 + 1 : ℚ) / ((total : ℚ) * 2) * 100) ≤ 100 := by
  apply jsRound_le_100
  have h1 : 1 ≤ total := by omega
  have ht : (0 : ℚ) < (total : ℚ) * 2 := by
    have h2 : (1 : ℚ) ≤ (total : ℚ) := by exact_mod_cast h1
    linarith
  have harg : ((i : ℚ) * 2 + 1) ≤ (total : ℚ) * 2 := by
    have : (i : ℚ) + 1 ≤ (total : ℚ) := by exact_mod_cast hi
    linarith
  have := (div_le_one ht).mpr harg
  nlinarith

theorem percsFrom_chain (total : ℕ) :
    ∀ n i, i + n ≤ total → List.Chain' (· ≤ ·) (percsFrom total i n) := by
  intro n
  induction n with
  | zero => intro i _; simp [percsFrom]
  | succ n ih =>
    intro i hi
    rw [percsFrom_succ, List.chain'_cons]
    refine ⟨jsRound_mono (percArg_mono total (by linarith)), ?_⟩
    cases n with
    | zero =>
      rw [percsFrom_zero, List.chain'_cons]
      exact ⟨percsFrom_le_100_head total i (by omega), List.chain'_singleton 100⟩
    | succ m =>
      have hrec := ih (i + 1) (by omega)
      rw [percsFrom_succ] at hrec ⊢
      rw [List.chain'_cons]
      refine ⟨jsRound_mono (percArg_mono total ?_), hrec⟩
      push_cast
      linarith

theorem percsFrom_eq_range (total : ℕ) :
    ∀ n i, percsFrom total i n =
      ((List.range' (2 * i) (2 * n)).map
        (fun k : ℕ => jsRound ((k : ℚ) / ((total : ℚ) * 2) * 100))) ++ [100] := by
  intro n
  induction n with
  | zero => intro i; simp [percsFrom]
  | succ n ih =>
    intro i
    have hr : List.range' (2 * i) (2 * (n + 1)) =
        (2 * i) :: (2 * i + 1) :: List.range' (2 * (i + 1)) (2 * n) := by
      have h2 : 2 * (n + 1) = (2 * n + 1) + 1 := by ring
      rw [h2, List.range'_succ, List.range'_succ]
      have h3 : 2 * i + 1 + 1 = 2 * (i + 1) := by ring
      rw [h3]
    rw [percsFrom_succ, ih (i + 1), hr, List.map_cons, List.map_cons,
      List.cons_append, List.cons_append]
    congr 2
    · push_cast
      ring_nf
    · congr 1
      push_cast
      ring_nf

/-- The core induction for the pipeline when every translate call succeeds:
the run returns `ok`, preserves chunk ids and order, ties each output's
audio fields to `generateTTS` on its own translated text, and emits exactly
the percentage sequence `percsFrom`, ending with the final 100% event. -/
theorem translateLoop_total
    (trF : TranscriptChunk → List String → String)
    (ttsFn : String → Except JsError (Option String)) (total : ℕ) :
    ∀ (rest : List TranscriptChunk) (i : ℕ) (prev : List String),
    ∃ outs : List TranslatedChunk,
      (translateAllChunksLoop (fun c p => .ok (trF c p)) ttsFn total rest i prev).2
        = .ok outs ∧
      outs.map (·.id) = rest.map (·.id) ∧
      (∀ o ∈ outs,
        (o.audioBase64, o.audioDuration) = generateTTS ttsFn o.translatedText) ∧
      (translateAllChunksLoop (fun c p => .ok (trF c p)) ttsFn total rest i prev).1.map
        (·.percentage) = percsFrom total i rest.length ∧
      (translateAllChunksLoop
        (fun c p => .ok (trF c p)) ttsFn total rest i prev).1.getLast?
        = some (progressFinal total) := by
  intro rest
  induction rest with
  | nil =>
    intro i prev
    exact ⟨[], rfl, rfl, by simp,
      by simp [translateAllChunksLoop, percsFrom_zero, progressFinal], rfl⟩
  | cons c rest ih =>
    intro i prev
    obtain ⟨outs', h2, hid, hmem, hperc, hlast⟩ := ih (i + 1) (prev ++ [trF c prev])
    refine ⟨(⟨c.id, c.startTime, c.endTime, c.fullText, trF c prev,
        (generateTTS ttsFn (trF c prev)).1,
        (generateTTS ttsFn (trF c prev)).2⟩ : TranslatedChunk) :: outs',
      ?_, ?_, ?_, ?_, ?_⟩
    · simp only [translateAllChunksLoop, h2, Except.map]
    · simp only [translateAllChunksLoop, List.map_cons, hid]
    · intro o ho
      rcases List.mem_cons.mp ho with ho | ho
      · subst ho
        rfl
      · exact hmem o ho
    · simp only [translateAllChunksLoop, List.map_cons, hperc, percsFrom_succ,
        progressEvent, List.length_cons, Nat.cast_zero, Nat.cast_one, add_zero]
    · have hne : (translateAllChunksLoop (fun c p => .ok (trF c p)) ttsFn total rest
          (i + 1) (prev ++ [trF c prev])).1 ≠ [] := by
        intro hnil
        rw [hnil] at hperc
        exact percsFrom_ne_nil total rest.length (i + 1) hperc.symm
      simp only [translateAllChunksLoop]
      rw [getLast?_cons_of_ne_nil _ _ (by simp [hne]),
        getLast?_cons_of_ne_nil _ _ hne]
      exact hlast

/-- C5: when every translation call succeeds, `translateAllChunks` invokes
`onProgress` exactly `2N + 1` times for `N` input chunks; the emitted
percentages are, in order, `round((2i + phaseOffset) / (2N) · 100)` for the
two phases of each chunk (enumerated by `k = 2i + phaseOffset` below) and a
final exact 100; the reported percentages are non-decreasing across the
run; the last event is the final 100% event; and the output has the same
length as the input, preserving chunk order and ids. -/
theorem C5_pipeline_progress
    (trF : TranscriptChunk → List String → String)
    (ttsFn : String → Except JsError (Option String))
    (chunks : List TranscriptChunk) :
    ((translateAllChunks (fun c p => .ok (trF c p)) ttsFn chunks).1.length
      = 2 * chunks.length + 1) ∧
    ((translateAllChunks (fun c p => .ok (trF c p)) ttsFn chunks).1.map (·.percentage)
      = ((List.range (2 * chunks.length)).map
          (fun k : ℕ => jsRound ((k : ℚ) / ((chunks.length : ℚ) * 2) * 100)))
        ++ [100]) ∧
    ((translateAllChunks (fun c p => .ok (trF c p)) ttsFn chunks).1.getLast?
      = some (progressFinal chunks.length)) ∧
    List.Pairwise (· ≤ ·)
      ((translateAllChunks (fun c p => .ok (trF c p)) ttsFn chunks).1.map
        (·.percentage)) ∧
    ∃ outs, (translateAllChunks (fun c p => .ok (trF c p)) ttsFn chunks).2 = .ok outs ∧
      outs.map (·.id) = chunks.map (·.id) ∧ outs.length = chunks.length := by
  obtain ⟨outs, h2, hid, _hmem, hperc, hlast⟩ :=
    translateLoop_total trF ttsFn chunks.length chunks 0 []
  unfold translateAllChunks
  refine ⟨?_, ?_, hlast, ?_, outs, h2, hid, ?_⟩
  · have hl := congrArg List.length hperc
    rwa [List.length_map, percsFrom_length] at hl
  · rw [hperc, percsFrom_eq_range, List.range_eq_range']
  · rw [hperc]
    exact List.chain'_iff_pairwise.mp
      (percsFrom_chain chunks.length chunks.length 0 (by omega))
  · have hl := congrArg List.length hid
    simpa using hl

/-- C6: a failure in the speech-synthesis phase never aborts
`translateAllChunks` — every chunk still appears in the output, at its
input position, and a chunk whose synthesis call failed carries a `none`
audio payload and `audioDuration` 0 while all other chunks are still
processed; whereas an error raised by the translate phase of any chunk
(head of the remaining list, or deeper in the run) propagates out and
aborts the whole run. -/
theorem C6_synthesis_isolated_translate_fatal
    (trF : TranscriptChunk → List String → String)
    (tr : TranscriptChunk → List String → Except JsError String)
    (ttsFn : String → Except JsError (Option String))
    (chunks rest : List TranscriptChunk) (c : TranscriptChunk)
    (total i : ℕ) (prev : List String) (t : String) (e : JsError) :
    (∃ outs,
      (translateAllChunks (fun c p => .ok (trF c p)) ttsFn chunks).2 = .ok outs ∧
      outs.map (·.id) = chunks.map (·.id) ∧
      ∀ o ∈ outs, (∃ e2, ttsFn o.translatedText = .error e2) →
        o.audioBase64 = none ∧ o.audioDuration = 0) ∧
    (tr c prev = .error e →
      translateAllChunksLoop tr ttsFn total (c :: rest) i prev =
        ([progressEvent total i 0 (truncate60 c.fullText) .translating],
          .error e)) ∧
    (tr c prev = .ok t →
      (translateAllChunksLoop tr ttsFn total rest (i + 1) (prev ++ [t])).2
        = .error e →
      (translateAllChunksLoop tr ttsFn total (c :: rest) i prev).2 = .error e) := by
  refine ⟨?_, ?_, ?_⟩
  · obtain ⟨outs, h2, hid, hmem, _hperc, _hlast⟩ :=
      translateLoop_total trF ttsFn chunks.length chunks 0 []
    refine ⟨outs, h2, hid, fun o ho hfail => ?_⟩
    obtain ⟨e2, he2⟩ := hfail
    have h := hmem o ho
    rw [generateTTS, he2] at h
    exact ⟨congrArg Prod.fst h, congrArg Prod.snd h⟩
  · intro h
    simp only [translateAllChunksLoop, h]
  · intro hok herr
    simp only [translateAllChunksLoop, hok, herr, Except.map]

/-- A minimal transcript chunk used to instantiate the pipeline-abort
clauses of the C6 theorem. -/
def c0 : TranscriptChunk :=
  { id := 0, segments := [], startTime := 0, endTime := 0, fullText := "hi" }

/-- A second minimal transcript chunk. -/
def c1 : TranscriptChunk :=
  { id := 1, segments := [], startTime := 0, endTime := 0, fullText := "yo" }

/-- A translate stub succeeding on the first chunk (empty history) and
failing on every later one. -/
def trOnce : TranscriptChunk → List String → Except JsError String :=
  fun _ p =>
    match p with
    | [] => .ok "t0"
    | _ => .error plainErr

/-- A synthesis stub that always returns an absent payload. -/
def ttsOk : String → Except JsError (Option String) := fun _ => .ok none

theorem C6_synthesis_isolated_translate_fatal_witness :
    (translateAllChunksLoop trOnce ttsOk 2 [c1] 1 ["t0"] =
      ([progressEvent 2 1 0 (truncate60 c1.fullText) .translating],
        .error plainErr)) ∧
    (translateAllChunksLoop trOnce ttsOk 2 [c0, c1] 0 []).2 = .error plainErr := by
  have h1 := (C6_synthesis_isolated_translate_fatal (fun _ _ => "") trOnce ttsOk
    [] [] c1 2 1 ["t0"] "t0" plainErr).2.1 rfl
  refine ⟨h1, ?_⟩
  exact (C6_synthesis_isolated_translate_fatal (fun _ _ => "") trOnce ttsOk
    [] [c1] c0 2 0 [] "t0" plainErr).2.2 rfl (congrArg Prod.snd h1)

/-! ## C3 / C4: the segment grouper -/

theorem durSum_concat (l : List TranscriptSegment) (s : TranscriptSegment) :
    durSum (l ++ [s]) = durSum l + s.duration := by
  simp [durSum]

theorem groupLoop_flatten (segs : List TranscriptSegment) :
    ∀ (cur : List TranscriptSegment) (dur : ℚ) (cid : ℕ),
    ((groupLoop segs cur dur cid).map (·.segments)).flatten = cur ++ segs := by
  induction segs with
  | nil =>
    intro cur dur cid
    cases cur with
    | nil => simp [groupLoop]
    | cons a l => simp [groupLoop, mkChunk]
  | cons seg rest ih =>
    intro cur dur cid
    simp only [groupLoop]
    split
    · simp only [List.map_cons, mkChunk, List.flatten_cons]
      rw [ih [] 0 (cid + 1)]
      simp
    · rw [ih (cur ++ [seg]) _ cid]
      simp

/-- C3: `groupSegmentsIntoChunks` neither splits, reorders, nor drops any
fragment — concatenating the fragment lists of all returned chunks, in
chunk order, yields exactly the input sequence. -/
theorem C3_group_preserves_fragments (segments : List TranscriptSegment) :
    ((groupSegmentsIntoChunks segments).map (·.segments)).flatten = segments := by
  unfold groupSegmentsIntoChunks
  simpa using groupLoop_flatten segments [] 0 0

theorem find?_range'_first (p : ℕ → Bool) :
    ∀ (len s m : ℕ), s ≤ m → m < s + len → p m = true →
      (∀ n, s ≤ n → n < m → p n = false) →
      (List.range' s len).find? p = some m := by
  intro len
  induction len with
  | zero => intro s m h1 h2 _ _; exact absurd h2 (by omega)
  | succ len ih =>
    intro s m h1 h2 hp hmin
    rw [List.range'_succ]
    cases hps : p s with
    | true =>
      have hms : m = s := by
        rcases Nat.lt_or_ge s m with hlt | hge
        · rw [hmin s le_rfl hlt] at hps
          cases hps
        · omega
      rw [List.find?_cons_of_pos _ hps, hms]
    | false =>
      rw [List.find?_cons_of_neg _ (by simp [hps])]
      have hne : m ≠ s := by
        intro heq
        rw [heq, hps] at hp
        cases hp
      refine ih (s + 1) m (by omega) (by omega) hp ?_
      intro n hn1 hn2
      exact hmin n (by omega) hn2

theorem firstCloseLen_eq_none (segs : List TranscriptSegment)
    (h : ∀ n, 1 ≤ n → n ≤ segs.length → specCloses (segs.take n) = false) :
    firstCloseLen segs = none := by
  unfold firstCloseLen
  rw [List.find?_eq_none]
  intro n hn
  rw [List.mem_range'_1] at hn
  rw [h n hn.1 (by omega)]
  simp

theorem firstCloseLen_eq_some (segs : List TranscriptSegment) (m : ℕ)
    (h1 : 1 ≤ m) (h2 : m ≤ segs.length)
    (hp : specCloses (segs.take m) = true)
    (hmin : ∀ n, 1 ≤ n → n < m → specCloses (segs.take n) = false) :
    firstCloseLen segs = some m := by
  unfold firstCloseLen
  exact find?_range'_first _ segs.length 1 m h1 (by omega) hp hmin

theorem groupSpecSegs_of_none {segs : List TranscriptSegment}
    (h : firstCloseLen segs = none) :
    groupSpecSegs segs = if segs.isEmpty then [] else [segs] := by
  unfold groupSpecSegs
  split
  · rename_i n hn
    rw [h] at hn
    cases hn
  · rfl

theorem groupSpecSegs_of_some {segs : List TranscriptSegment} {n : ℕ}
    (h : firstCloseLen segs = some n) :
    groupSpecSegs segs = segs.take n :: groupSpecSegs (segs.drop n) := by
  conv_lhs => rw [groupSpecSegs]
  split
  · rename_i n' hn
    rw [h] at hn
    injection hn with hnn
    rw [hnn]
  · rename_i hn
    rw [h] at hn
    cases hn

theorem specCloses_concat_iff (cur : List TranscriptSegment)
    (seg : TranscriptSegment) :
    specCloses (cur ++ [seg]) = true ↔
      (durSum cur + seg.duration ≥ CHUNK_MAX_DURATION_SEC ∨
       (endsWithPunctuation seg.text = true ∧
        durSum cur + seg.duration ≥ CHUNK_MIN_DURATION_SEC)) := by
  unfold specCloses
  rw [List.getLast?_concat]
  simp only [durSum_concat, Bool.or_eq_true, Bool.and_eq_true, decide_eq_true_eq]
  tauto

/-- The incremental scan of `groupSegmentsIntoChunks` emits exactly the
shortest-closing-prefix decomposition of the spec, provided the running
accumulator matches `cur` and no nonempty prefix of `cur` already closes. -/
theorem groupLoop_eq_chunksFrom (segs : List TranscriptSegment) :
    ∀ (cur : List TranscriptSegment) (dur : ℚ) (cid : ℕ),
      dur = durSum cur →
      (∀ n, 1 ≤ n → n ≤ cur.length → specCloses (cur.take n) = false) →
      groupLoop segs cur dur cid = chunksFrom cid (groupSpecSegs (cur ++ segs)) := by
  induction segs with
  | nil =>
    intro cur dur cid hdur hinv
    rw [List.append_nil, groupSpecSegs_of_none (firstCloseLen_eq_none cur hinv)]
    cases cur with
    | nil => simp [groupLoop, chunksFrom]
    | cons a l => simp [groupLoop, chunksFrom]
  | cons seg rest ih =>
    intro cur dur cid hdur hinv
    subst hdur
    have hassoc : cur ++ seg :: rest = (cur ++ [seg]) ++ rest := by simp
    simp only [groupLoop]
    split
    · rename_i hcond
      simp only [Bool.or_eq_true, Bool.and_eq_true, decide_eq_true_eq] at hcond
      have hcondP : durSum cur + seg.duration ≥ CHUNK_MAX_DURATION_SEC ∨
          (endsWithPunctuation seg.text = true ∧
            durSum cur + seg.duration ≥ CHUNK_MIN_DURATION_SEC) := hcond
      have hlen : (cur ++ [seg]).length = cur.length + 1 := by simp
      have htake : ((cur ++ [seg]) ++ rest).take (cur.length + 1) = cur ++ [seg] := by
        rw [← hlen, List.take_left]
      have hdrop : ((cur ++ [seg]) ++ rest).drop (cur.length + 1) = rest := by
        rw [← hlen, List.drop_left]
      have hfc : firstCloseLen ((cur ++ [seg]) ++ rest) = some (cur.length + 1) := by
        apply firstCloseLen_eq_some
        · omega
        · simp
        · rw [htake, specCloses_concat_iff]
          exact hcondP
        · intro n h1 h2
          have ht : ((cur ++ [seg]) ++ rest).take n = cur.take n := by
            rw [List.take_append_eq_append_take, List.take_append_eq_append_take]
            have e1 : n - cur.length = 0 := by omega
            have e2 : n - (cur ++ [seg]).length = 0 := by rw [hlen]; omega
            rw [e1, e2]
            simp
          rw [ht]
          exact hinv n h1 (by omega)
      rw [hassoc, groupSpecSegs_of_some hfc, htake, hdrop]
      simp only [chunksFrom]
      congr 1
      exact ih [] 0 (cid + 1) rfl (fun n h1 h2 => by simp at h2; omega)
    · rename_i hcond
      have hsc : specCloses (cur ++ [seg]) = false := by
        have h1 : ¬ specCloses (cur ++ [seg]) = true := by
          rw [specCloses_concat_iff]
          intro hq
          apply hcond
          simp only [Bool.or_eq_true, Bool.and_eq_true, decide_eq_true_eq]
          exact hq
        exact Bool.eq_false_iff.mpr h1
      rw [hassoc]
      apply ih (cur ++ [seg]) _ cid (by rw [durSum_concat])
      intro n h1 h2
      rw [List.length_append, List.length_singleton] at h2
      rcases Nat.lt_or_ge n (cur.length + 1) with h | h
      · have ht : (cur ++ [seg]).take n = cur.take n := by
          rw [List.take_append_eq_append_take]
          have e1 : n - cur.length = 0 := by omega
          rw [e1]
          simp
        rw [ht]
        exact hinv n h1 (by omega)
      · have hn : n = cur.length + 1 := by omega
        have hlen : (cur ++ [seg]).length = cur.length + 1 := by simp
        rw [hn, ← hlen, List.take_length]
        exact hsc

/-- The three-fragment input of the spec's worked example. -/
def exampleSegs : List TranscriptSegment :=
  [⟨"Hello there.", 0, 2⟩, ⟨"How are you", 2, 5/2⟩, ⟨"today?", 9/2, 3/2⟩]

/-- The single chunk the worked example must produce. -/
def exampleChunk : TranscriptChunk :=
  { id := 0
    segments := exampleSegs
    startTime := 0
    endTime := 6
    fullText := "Hello there. How are you today?" }

theorem group_example_eval :
    groupSegmentsIntoChunks exampleSegs = [exampleChunk] := by
  have e1 : endsWithPunctuation "Hello there." = true := by decide
  have e2 : endsWithPunctuation "How are you" = false := by decide
  have e3 : endsWithPunctuation "today?" = true := by decide
  have etext : String.intercalate " " ["Hello there.", "How are you", "today?"]
      = "Hello there. How are you today?" := by decide
  simp only [groupSegmentsIntoChunks, exampleSegs, groupLoop, e1, e2, e3,
    Bool.or_eq_true, Bool.and_eq_true, decide_eq_true_eq,
    CHUNK_MAX_DURATION_SEC, CHUNK_MIN_DURATION_SEC]
  norm_num
  simp only [mkChunk, List.headD, List.getLastD, List.map_cons, List.map_nil]
  simp only [exampleChunk, exampleSegs, etext]
  norm_num

/-- C4: `groupSegmentsIntoChunks` closes (emits) the running chunk exactly
when the accumulated duration reaches 15 s, or reaches 3 s with the
last-added fragment's trimmed text ending in one of `.` `!` `?` `;` `:` —
it computes exactly the spec-side shortest-closing-run decomposition
`groupSpec`, under which fragments remaining after the scan form a final
chunk even below 3 s; the empty input yields the empty output; and on the
three-fragment worked example it returns exactly one chunk with
`startTime` 0, `endTime` 6 and full text
"Hello there. How are you today?". -/
theorem C4_group_closing_rule :
    (∀ segs, groupSegmentsIntoChunks segs = groupSpec segs) ∧
    groupSegmentsIntoChunks [] = [] ∧
    groupSegmentsIntoChunks exampleSegs = [exampleChunk] := by
  refine ⟨fun segs => ?_, rfl, group_example_eval⟩
  unfold groupSegmentsIntoChunks groupSpec
  exact groupLoop_eq_chunksFrom segs [] 0 0 rfl (fun n h1 h2 => by simp at h2; omega)

end TonsoTranslator
